import Mathlib

/-!
Verification of the relational data exporter (internal/database/export.go).

The exporter walks the foreign-key graph of a relational database starting
from one root row, collects the reachable rows in dependency order, and
serializes them as an idempotent SQL script.  This file gives a shallow
embedding of that code and proves/refutes the specified properties.

The database engine (schema catalog, row store) is modelled as finite
association lists, so that every hypothesis about a concrete database is
decidable.  The recursion of `exportRecord` is made total with a fuel
parameter; `none` means the fuel ran out (the Go code has no such bound,
so termination is itself one of the proved properties).
-/

/-- SQL values as scanned by database/sql into `interface{}`.
`float`, `time` and `bin` carry their Go textual rendering (`%v` for
floats, RFC3339 for `time.Time.Format`, the raw bytes as a string for
`[]byte`); `other` stands for any value kind not specially handled by
`formatValue` (JSONB, arrays, ...), carrying its `fmt.Sprintf("%v")`
rendering. -/
inductive Value where
  | null : Value
  | int : Int → Value
  | float : String → Value
  | bool : Bool → Value
  | text : String → Value
  | time : String → Value
  | bin : String → Value
  | other : String → Value
deriving DecidableEq

/-- Is the value of the `other` (not specially handled) kind? -/
def Value.isOther : Value → Bool
  | Value.other _ => true
  | _ => false

/-- Models `fmt.Sprintf("%v", id)` for the values used as record ids
(integers and strings in practice). -/
def goFmt : Value → String
  | Value.null => "<nil>"
  | Value.int n => toString n
  | Value.float s => s
  | Value.bool b => if b then "true" else "false"
  | Value.text s => s
  | Value.time s => s
  | Value.bin s => s
  | Value.other s => s

/-- ForeignKey from export.go: one outbound foreign-key constraint. -/
structure ForeignKey where
  ConstraintName : String
  TableName : String
  ColumnName : String
  ForeignTableName : String
  ForeignColumnName : String
deriving DecidableEq

/-- Record from export.go: a fetched row. -/
structure Record where
  Table : String
  Columns : List String
  Values : List Value
deriving DecidableEq

/-- The relational engine as seen through the four queries export.go issues:
column list per table, primary-key index columns per table (the rows the
pg_index query returns, in the order the engine yields them), the foreign-key
constraints, and the data rows keyed by table and primary-key value. -/
structure DB where
  cols : List (String × List String)
  pks : List (String × List String)
  fks : List ForeignKey
  rows : List (String × Value × List Value)
deriving DecidableEq

/-- getTableColumns: the information_schema.columns query (empty for an
unknown table, as the real query returns no rows). -/
def getTableColumns (db : DB) (t : String) : List String :=
  match db.cols.find? (fun p => p.1 == t) with
  | none => []
  | some p => p.2

/-- The rows returned by the pg_index/pg_attribute primary-key query. -/
def pkIndexColumns (db : DB) (t : String) : List String :=
  match db.pks.find? (fun p => p.1 == t) with
  | none => []
  | some p => p.2

/-- getPrimaryKeyColumn: `QueryRow(query, table).Scan(&pkColumn)`.
`Scan` on a `*Row` errors (`sql.ErrNoRows`) when the query returns no rows
and otherwise scans the first row, discarding the rest. -/
def getPrimaryKeyColumn (db : DB) (t : String) : Except String String :=
  match pkIndexColumns db t with
  | [] => Except.error "sql: no rows in result set"
  | c :: _ => Except.ok c

/-- getForeignKeys: the information_schema query filtered on tc.table_name. -/
def getForeignKeys (db : DB) (t : String) : List ForeignKey :=
  db.fks.filter (fun fk => fk.TableName == t)

/-- The single-row lookup issued by fetchRecord (WHERE pkColumn = id). -/
def rowLookup (db : DB) (t : String) (id : Value) : Option (String × Value × List Value) :=
  db.rows.find? (fun e => e.1 == t && e.2.1 == id)

/-- fetchRecord: SELECT all columns of one row by primary-key value;
`none` is the sql.ErrNoRows case (record == nil in Go). -/
def fetchRecord (db : DB) (t : String) (pkColumn : String) (id : Value) : Option Record :=
  match rowLookup db t id with
  | none => none
  | some e => some ⟨t, getTableColumns db t, e.2.2⟩

/-- The Exporter's mutable state: the visited-key set (a Go
map[string]bool) and the records collected so far, in order. -/
structure EState where
  visited : List String
  records : List Record
deriving DecidableEq

/-- The visited-set key built by exportRecord:
`fmt.Sprintf("%s:%v", table, id)`. -/
def recordKey (table : String) (id : Value) : String :=
  table ++ ":" ++ goFmt id

/-- The value of a row at a column index (`record.Values[colIndex]` in Go;
the fetched row always has as many values as columns). -/
def valueAt (vals : List Value) (i : Nat) : Value :=
  (vals.get? i).getD Value.null

/-- The foreign-key loop of exportRecord: for each edge whose source column
occurs in the fetched row and whose value is non-NULL, recurse (`exp` is the
recursive call at the remaining fuel); an error from the recursive call is
printed as a warning and otherwise ignored, so traversal continues. -/
def exportFKs (exp : String → Value → EState → Option (EState × Option String)) :
    List ForeignKey → Record → EState → Option EState
  | [], _, s => some s
  | fk :: rest, record, s =>
    match record.Columns.findIdx? (fun c => c == fk.ColumnName) with
    | none => exportFKs exp rest record s
    | some i =>
      let fkValue := valueAt record.Values i
      if fkValue = Value.null then
        exportFKs exp rest record s
      else
        match exp fk.ForeignTableName fkValue s with
        | none => none
        | some (s2, _) => exportFKs exp rest record s2

/-- exportRecord: mark the key visited, resolve schema metadata, fetch the
row, recurse into the non-NULL foreign keys, then append the row.  The
second component of the result is the returned `error` (`none` = nil); the
outer `none` means the fuel was exhausted. -/
def exportRecord (db : DB) : Nat → String → Value → EState → Option (EState × Option String)
  | 0, _, _, _ => none
  | fuel + 1, table, id, s =>
    let key := recordKey table id
    if s.visited.contains key then
      some (s, none)
    else
      let s1 : EState := ⟨key :: s.visited, s.records⟩
      match getPrimaryKeyColumn db table with
      | Except.error e =>
        some (s1, some ("failed to get primary key for table " ++ table ++ ": " ++ e))
      | Except.ok pkColumn =>
        match fetchRecord db table pkColumn id with
        | none =>
          some (s1, some ("record not found: " ++ table ++ "." ++ pkColumn ++ " = " ++ goFmt id))
        | some record =>
          match exportFKs (exportRecord db fuel) (getForeignKeys db table) record s1 with
          | none => none
          | some s2 => some (⟨s2.visited, s2.records ++ [record]⟩, none)

/-- Export: reset the state, run the recursive walk from the root, and
return the collected records unless the root call itself failed. -/
def Export (db : DB) (fuel : Nat) (table : String) (id : Value) :
    Option (Except String (List Record)) :=
  match exportRecord db fuel table id ⟨[], []⟩ with
  | none => none
  | some (_, some e) => some (Except.error e)
  | some (s, none) => some (Except.ok s.records)

/-- One pass of strings.ReplaceAll with a single-character pattern. -/
def replaceAllChar (pat : Char) (rep : List Char) : List Char → List Char
  | [] => []
  | c :: rest => (if c = pat then rep else [c]) ++ replaceAllChar pat rep rest

/-- The single-quote character. -/
def squote : Char := Char.ofNat 39

/-- The backslash character. -/
def bslash : Char := Char.ofNat 92

/-- A one-character string holding a single quote. -/
def sqts : String := String.singleton squote

/-- escapeSQLString: double every backslash, then double every single
quote (two strings.ReplaceAll passes, in that order). -/
def escapeSQLString (s : String) : String :=
  let s1 := String.mk (replaceAllChar bslash [bslash, bslash] s.data)
  String.mk (replaceAllChar squote [squote, squote] s1.data)

/-- formatValue: render one value as a SQL literal.  Unsupported kinds
fall through to the default branch, which stringifies and escapes. -/
def formatValue : Value → String
  | Value.null => "NULL"
  | Value.bin s => sqts ++ escapeSQLString s ++ sqts
  | Value.text s => sqts ++ escapeSQLString s ++ sqts
  | Value.bool b => if b then "true" else "false"
  | Value.int n => toString n
  | Value.float s => s
  | Value.time s => sqts ++ s ++ sqts
  | Value.other s => sqts ++ escapeSQLString s ++ sqts

/-- The loop body of GenerateSQL: append one INSERT statement (three
Fprintf calls) for a record to the output written so far. -/
def generateInsert (record : Record) (acc : String) : String :=
  let columns := String.intercalate ", " record.Columns
  let values := record.Values.map formatValue
  let valueList := String.intercalate ", " values
  let acc := acc ++ ("INSERT INTO " ++ record.Table ++ " (" ++ columns ++ ")\n")
  let acc := acc ++ ("VALUES (" ++ valueList ++ ")\n")
  acc ++ "ON CONFLICT DO NOTHING;\n\n"

/-- GenerateSQL: header, BEGIN, one INSERT block per record (in order),
COMMIT.  `now` is the RFC3339 rendering of time.Now().  The Go function's
`error` result is modelled by the Except layer; the function itself always
returns nil. -/
def GenerateSQL (records : List Record) (now : String) : Except String String :=
  let out := "-- Database export generated by agentenv\n"
  let out := out ++ ("-- Generated at: " ++ now ++ "\n\n")
  let out := out ++ "BEGIN;\n\n"
  let out := records.foldl (fun acc record => generateInsert record acc) out
  Except.ok (out ++ "COMMIT;\n")

-- Derived notions used to state the claims.

/-- The (target table, value) pairs of the edges the foreign-key loop
recurses into, out of a given edge list: the source column occurs in the
row and its value is non-NULL. -/
def depPairsOf (fks : List ForeignKey) (r : Record) : List (String × Value) :=
  fks.filterMap (fun fk =>
    match r.Columns.findIdx? (fun c => c == fk.ColumnName) with
    | none => none
    | some i =>
      let v := valueAt r.Values i
      if v = Value.null then none else some (fk.ForeignTableName, v))

/-- The dependency pairs of a fetched row: exactly the (target table,
value) pairs the foreign-key loop recurses into. -/
def depPairs (db : DB) (r : Record) : List (String × Value) :=
  depPairsOf (getForeignKeys db r.Table) r

/-- The visited-set keys of a record's dependencies. -/
def depKeys (db : DB) (r : Record) : List String :=
  (depPairs db r).map (fun p => recordKey p.1 p.2)

/-- The (table, primary-key value) pair a record stands for: the value at
its table's primary-key column. -/
def recKey (db : DB) (r : Record) : Option (String × Value) :=
  match getPrimaryKeyColumn db r.Table with
  | Except.error _ => none
  | Except.ok pk =>
    match r.Columns.findIdx? (fun c => c == pk) with
    | none => none
    | some i => some (r.Table, r.Values.getD i Value.null)

/-- The visited-set key a record stands for. -/
def recKeyStr (db : DB) (r : Record) : Option String :=
  (recKey db r).map (fun p => recordKey p.1 p.2)

/-- A consistent database: the row stored under (table t, id v) really has
primary-key value v in table t — what the SQL lookup `WHERE pk = id`
guarantees on a real engine. -/
def Keyed (db : DB) : Prop :=
  ∀ e ∈ db.rows, recKey db ⟨e.1, getTableColumns db e.1, e.2.2⟩ = some (e.1, e.2.1)

/-- An acyclic foreign-key instance graph, witnessed by a rank function
that strictly decreases along every dependency edge. -/
def RankOK (db : DB) (rank : String → Nat) : Prop :=
  ∀ e ∈ db.rows, ∀ p ∈ depPairs db ⟨e.1, getTableColumns db e.1, e.2.2⟩,
    rank (recordKey p.1 p.2) < rank (recordKey e.1 e.2.1)

/-- The dependency-order invariant claimed by the spec: wherever the list
splits around a record r, no record it references appears at r's position
or later. -/
def DepOrdered (db : DB) (l : List Record) : Prop :=
  ∀ pre r post, l = pre ++ r :: post → ∀ k ∈ depKeys db r,
    ∀ r2 ∈ r :: post, recKeyStr db r2 ≠ some k

/-- A key set closed under dependency edges, covering the root: bounds the
rows an export can reach. -/
def ClosedKeys (db : DB) (R : Finset String) : Prop :=
  ∀ e ∈ db.rows, recordKey e.1 e.2.1 ∈ R →
    ∀ p ∈ depPairs db ⟨e.1, getTableColumns db e.1, e.2.2⟩, recordKey p.1 p.2 ∈ R

instance (db : DB) : Decidable (Keyed db) := by
  unfold Keyed
  infer_instance

instance (db : DB) (rank : String → Nat) : Decidable (RankOK db rank) := by
  unfold RankOK
  infer_instance

instance (db : DB) (R : Finset String) : Decidable (ClosedKeys db R) := by
  unfold ClosedKeys
  infer_instance

-- Concrete databases for the scenario checks.

/-- Scenario C database: a single self-referential nodes row 5 with
parent_id = 5. -/
def selfDB : DB :=
  ⟨[("nodes", ["id", "parent_id"])],
   [("nodes", ["id"])],
   [⟨"nodes_parent_fk", "nodes", "parent_id", "nodes", "id"⟩],
   [("nodes", Value.int 5, [Value.int 5, Value.int 5])]⟩

/-- The exported record of scenario C. -/
def selfRec : Record := ⟨"nodes", ["id", "parent_id"], [Value.int 5, Value.int 5]⟩

example : Export selfDB 10 "nodes" (Value.int 5) = some (Except.ok [selfRec]) := rfl

/-- Scenario B database: posts 100 references users 1. -/
def sceB : DB :=
  ⟨[("users", ["id", "email"]), ("posts", ["id", "user_id"])],
   [("users", ["id"]), ("posts", ["id"])],
   [⟨"posts_user_fk", "posts", "user_id", "users", "id"⟩],
   [("users", Value.int 1, [Value.int 1, Value.text "a@b.c"]),
    ("posts", Value.int 100, [Value.int 100, Value.int 1])]⟩

/-- The users record of scenario B. -/
def uRecB : Record := ⟨"users", ["id", "email"], [Value.int 1, Value.text "a@b.c"]⟩

/-- The posts record of scenario B. -/
def pRecB : Record := ⟨"posts", ["id", "user_id"], [Value.int 100, Value.int 1]⟩

example : Export sceB 10 "posts" (Value.int 100) = some (Except.ok [uRecB, pRecB]) := rfl

-- Shared lemmas about the escaping passes.

/-- The per-character effect of the two escaping passes combined. -/
def escChar (c : Char) : List Char :=
  if c = bslash then [bslash, bslash]
  else if c = squote then [squote, squote]
  else [c]

theorem replaceAllChar_append (pat : Char) (rep : List Char) (a b : List Char) :
    replaceAllChar pat rep (a ++ b) = replaceAllChar pat rep a ++ replaceAllChar pat rep b := by
  induction a with
  | nil => simp [replaceAllChar]
  | cons c t ih => simp [replaceAllChar, ih]

theorem bslash_ne_squote : bslash ≠ squote := by decide

theorem escChars_cons (c : Char) (l : List Char) :
    replaceAllChar squote [squote, squote] (replaceAllChar bslash [bslash, bslash] (c :: l)) =
      escChar c ++ replaceAllChar squote [squote, squote] (replaceAllChar bslash [bslash, bslash] l) := by
  by_cases hb : c = bslash
  · subst hb
    simp [replaceAllChar, escChar, replaceAllChar_append, bslash_ne_squote]
  · by_cases hq : c = squote
    · subst hq
      simp [replaceAllChar, escChar, replaceAllChar_append, bslash_ne_squote, Ne.symm bslash_ne_squote]
    · simp [replaceAllChar, escChar, replaceAllChar_append, hb, hq]

/-- The body scanner of a standard-conforming SQL string literal
(PostgreSQL with standard_conforming_strings = on, the default): a doubled
quote yields one quote, a single quote closes the literal (anything after
it is a parse error at this level), every other character — including a
backslash — stands for itself. -/
def stdBody : List Char → Option (List Char)
  | [] => none
  | [c] => if c = squote then some [] else none
  | c :: c2 :: rest =>
    if c = squote then
      (if c2 = squote then (stdBody rest).map (fun l => squote :: l) else none)
    else
      (stdBody (c2 :: rest)).map (fun l => c :: l)

/-- Parse a quoted literal under the standard-conforming grammar. -/
def parseStdLiteral (s : String) : Option String :=
  match s.data with
  | [] => none
  | c :: rest => if c = squote then (stdBody rest).map String.mk else none

/-- A string with every backslash doubled. -/
def dupBackslashes (s : String) : String :=
  String.mk (replaceAllChar bslash [bslash, bslash] s.data)

theorem stdBody_cons_ne (c : Char) (l : List Char) (h : ¬c = squote) :
    stdBody (c :: l) = (stdBody l).map (fun x => c :: x) := by
  cases l <;> simp [stdBody, h]

theorem stdBody_quote_quote (l : List Char) :
    stdBody (squote :: squote :: l) = (stdBody l).map (fun x => squote :: x) := by
  simp [stdBody]

theorem stdBody_esc (l : List Char) :
    stdBody (replaceAllChar squote [squote, squote]
        (replaceAllChar bslash [bslash, bslash] l) ++ [squote]) =
      some (replaceAllChar bslash [bslash, bslash] l) := by
  induction l with
  | nil => simp [replaceAllChar, stdBody]
  | cons c t ih =>
    rw [escChars_cons]
    by_cases hb : c = bslash
    · subst hb
      have h2 : replaceAllChar bslash [bslash, bslash] (bslash :: t) =
          bslash :: bslash :: replaceAllChar bslash [bslash, bslash] t := by
        simp [replaceAllChar]
      have h3 : escChar bslash = [bslash, bslash] := by simp [escChar]
      rw [h2, h3]
      simp only [List.cons_append, List.nil_append]
      rw [stdBody_cons_ne _ _ bslash_ne_squote, stdBody_cons_ne _ _ bslash_ne_squote, ih]
      rfl
    · by_cases hq : c = squote
      · subst hq
        have h2 : replaceAllChar bslash [bslash, bslash] (squote :: t) =
            squote :: replaceAllChar bslash [bslash, bslash] t := by
          simp [replaceAllChar, Ne.symm bslash_ne_squote]
        have h3 : escChar squote = [squote, squote] := by
          simp [escChar, Ne.symm bslash_ne_squote]
        rw [h2, h3]
        simp only [List.cons_append, List.nil_append]
        rw [stdBody_quote_quote, ih]
        rfl
      · have h2 : replaceAllChar bslash [bslash, bslash] (c :: t) =
            c :: replaceAllChar bslash [bslash, bslash] t := by
          simp [replaceAllChar, hb]
        have h3 : escChar c = [c] := by simp [escChar, hb, hq]
        rw [h2, h3]
        simp only [List.cons_append, List.nil_append]
        rw [stdBody_cons_ne _ _ hq, ih]
        rfl

-- C4: getPrimaryKeyColumn on missing and composite primary keys.

/-- A table with a composite (two-column) primary key. -/
def compDB : DB := ⟨[("pair", ["a", "b", "v"])], [("pair", ["a", "b"])], [], []⟩

/-- A table with no primary key at all. -/
def noPkDB : DB := ⟨[("logs", ["msg"])], [], [], []⟩

/-- C4 counterexample: on a composite (two-column) primary key,
getPrimaryKeyColumn does not fail — QueryRow.Scan silently takes the first
row of the catalog query — so the claim that it fails for composite keys is
false. -/
theorem getPrimaryKeyColumn_composite_cex :
    pkIndexColumns compDB "pair" = ["a", "b"] ∧
      getPrimaryKeyColumn compDB "pair" = Except.ok "a" :=
  ⟨rfl, rfl⟩

/-- C4 (amended): getPrimaryKeyColumn returns a single column name; it
fails exactly when the primary-key catalog query returns no rows (no
primary key, or unknown table); on a composite key it silently returns the
first column the query yields instead of failing. -/
theorem getPrimaryKeyColumn_spec (db : DB) (t : String) :
    ((∃ e, getPrimaryKeyColumn db t = Except.error e) ↔ pkIndexColumns db t = []) ∧
      ∀ c rest, pkIndexColumns db t = c :: rest → getPrimaryKeyColumn db t = Except.ok c := by
  constructor
  · constructor
    · intro he
      obtain ⟨e, he⟩ := he
      unfold getPrimaryKeyColumn at he
      cases h : pkIndexColumns db t with
      | nil => rfl
      | cons c rest => rw [h] at he; cases he
    · intro hc
      refine ⟨"sql: no rows in result set", ?_⟩
      unfold getPrimaryKeyColumn
      rw [hc]
  · intro c rest hc
    unfold getPrimaryKeyColumn
    rw [hc]

/-- Witness for C4 (amended): a table with no primary key makes the
function fail. -/
theorem getPrimaryKeyColumn_spec_witness :
    ∃ e, getPrimaryKeyColumn noPkDB "logs" = Except.error e :=
  (getPrimaryKeyColumn_spec noPkDB "logs").1.mpr rfl

-- C6: escape/parse round trip.

/-- A one-character string holding a backslash. -/
def bsS : String := String.singleton bslash

/-- C6 counterexample: for the one-backslash string, the literal the
formatter produces parses back, under the engine's default
(standard-conforming) string grammar, to TWO backslashes — not to the
original string.  The escape/unescape round trip is not the identity. -/
theorem escape_roundtrip_cex :
    parseStdLiteral (formatValue (Value.text bsS)) = some (bsS ++ bsS) ∧ bsS ++ bsS ≠ bsS := by
  constructor
  · rfl
  · decide

/-- C6 (amended): under the target engine's default standard-conforming
string-literal grammar, the formatted literal of any string parses back to
the original string with every backslash doubled; it is the original
string exactly when the string contains no backslash (quote doubling alone
round-trips). -/
theorem escape_roundtrip_amended (s : String) :
    parseStdLiteral (formatValue (Value.text s)) = some (dupBackslashes s) := by
  have h : parseStdLiteral (formatValue (Value.text s)) =
      (stdBody (replaceAllChar squote [squote, squote]
        (replaceAllChar bslash [bslash, bslash] s.data) ++ [squote])).map String.mk := rfl
  rw [h, stdBody_esc]
  rfl

-- C7: the value-formatting map, checked against a spec-side formatter.

/-- The spec's per-character escape: double embedded single quotes and
double backslashes. -/
def specEscChar (c : Char) : List Char :=
  if c = squote then [squote, squote]
  else if c = bslash then [bslash, bslash]
  else [c]

/-- The spec's escape, applied character by character. -/
def specEscape (s : String) : String :=
  String.mk (s.data.foldr (fun c acc => specEscChar c ++ acc) [])

/-- The spec's value-formatting table (the `other` kind is outside this
claim and mapped arbitrarily). -/
def specFormatValue : Value → String
  | Value.null => "NULL"
  | Value.int n => toString n
  | Value.float s => s
  | Value.bool b => if b then "true" else "false"
  | Value.text s => sqts ++ specEscape s ++ sqts
  | Value.bin s => sqts ++ specEscape s ++ sqts
  | Value.time s => sqts ++ s ++ sqts
  | Value.other _ => ""

theorem escChar_eq_specEscChar (c : Char) : escChar c = specEscChar c := by
  by_cases hb : c = bslash
  · subst hb
    simp [escChar, specEscChar, bslash_ne_squote]
  · by_cases hq : c = squote
    · subst hq
      simp [escChar, specEscChar, Ne.symm bslash_ne_squote]
    · simp [escChar, specEscChar, hb, hq]

theorem escapeSQLString_eq_spec (s : String) : escapeSQLString s = specEscape s := by
  show String.mk (replaceAllChar squote [squote, squote]
      (replaceAllChar bslash [bslash, bslash] s.data)) = _
  unfold specEscape
  congr 1
  induction s.data with
  | nil => rfl
  | cons c t ih => rw [escChars_cons, List.foldr_cons, ih, escChar_eq_specEscChar]

/-- C7: formatValue maps each supported value kind exactly as the spec
states — NULL keyword, true/false, unquoted decimals, quoted text/bytes
with quotes and backslashes doubled, quoted timestamp. -/
theorem formatValue_spec (v : Value) (h : v.isOther = false) :
    formatValue v = specFormatValue v := by
  cases v with
  | other s => simp [Value.isOther] at h
  | text s => simp [formatValue, specFormatValue, escapeSQLString_eq_spec]
  | bin s => simp [formatValue, specFormatValue, escapeSQLString_eq_spec]
  | null => rfl
  | int n => rfl
  | float s => rfl
  | bool b => rfl
  | time s => rfl

/-- Witness for C7 at a value whose text contains a quote. -/
theorem formatValue_spec_witness :
    (Value.text sqts).isOther = false ∧
      formatValue (Value.text sqts) = specFormatValue (Value.text sqts) :=
  ⟨rfl, formatValue_spec (Value.text sqts) rfl⟩

-- C8: the overall structure of the generated script.

/-- The two header comment lines. -/
def sqlHeader (now : String) : String :=
  "-- Database export generated by agentenv\n" ++ ("-- Generated at: " ++ now ++ "\n\n")

/-- One spec-shaped INSERT block: all columns, formatted values, conflict
clause. -/
def insertBlock (record : Record) : String :=
  "INSERT INTO " ++ record.Table ++ " (" ++ String.intercalate ", " record.Columns ++ ")\n" ++
    ("VALUES (" ++ String.intercalate ", " (record.Values.map formatValue) ++ ")\n") ++
    "ON CONFLICT DO NOTHING;\n\n"

/-- The concatenation of the blocks of a record list, in order. -/
def insertBlocks (records : List Record) : String :=
  records.foldr (fun r acc => insertBlock r ++ acc) ""

theorem str_append_empty (s : String) : s ++ "" = s := by
  apply String.ext
  show s.data ++ [] = s.data
  simp

theorem generateInsert_eq (record : Record) (acc : String) :
    generateInsert record acc = acc ++ insertBlock record := by
  unfold generateInsert insertBlock
  simp [String.append_assoc]

theorem foldl_generateInsert (l : List Record) :
    ∀ init : String, l.foldl (fun acc record => generateInsert record acc) init =
      init ++ insertBlocks l := by
  induction l with
  | nil => intro init; simp [insertBlocks, str_append_empty]
  | cons r t ih =>
    intro init
    show t.foldl (fun acc record => generateInsert record acc) (generateInsert r init) = _
    rw [ih, generateInsert_eq]
    unfold insertBlocks
    rw [List.foldr_cons, String.append_assoc]

/-- C8: GenerateSQL produces the header, then a single BEGIN, then exactly
one INSERT block per record in input order, then a single COMMIT, and it
succeeds (returns nil error). -/
theorem generateSQL_structure (records : List Record) (now : String) :
    GenerateSQL records now =
      Except.ok (sqlHeader now ++ "BEGIN;\n\n" ++ insertBlocks records ++ "COMMIT;\n") := by
  show Except.ok (List.foldl (fun acc record => generateInsert record acc)
      ("-- Database export generated by agentenv\n" ++ ("-- Generated at: " ++ now ++ "\n\n")
        ++ "BEGIN;\n\n") records ++ "COMMIT;\n") = _
  rw [foldl_generateInsert]
  rfl

-- C10: unsupported value kinds during formatting.

/-- A record carrying a value of an unsupported (complex) kind. -/
def jsonRec : Record := ⟨"events", ["id", "payload"], [Value.int 7, Value.other "payload-v1"]⟩

/-- C10 counterexample: a value of an unsupported kind does not make
script generation fail — formatValue's default branch stringifies and
escapes it, and GenerateSQL succeeds. -/
theorem generateSQL_other_cex :
    (GenerateSQL [jsonRec] "2025-01-01T00:00:00Z").isOk = true ∧
      formatValue (Value.other "payload-v1") = sqts ++ "payload-v1" ++ sqts := by
  constructor
  · rfl
  · rfl

/-- C10 (amended): an unsupported value kind is formatted by converting
the value to its string form, escaping and quoting it; GenerateSQL always
succeeds and never reports an error. -/
theorem generateSQL_other_amended :
    (∀ records now, ∃ script, GenerateSQL records now = Except.ok script) ∧
      ∀ s, formatValue (Value.other s) = sqts ++ escapeSQLString s ++ sqts :=
  ⟨fun records now => ⟨_, generateSQL_structure records now⟩, fun _ => rfl⟩

-- C9: which foreign-key edges the walk recurses into.

/-- Walk a list of (table, value) targets, recursing into each and
ignoring errors, as the foreign-key loop does for its non-skipped edges. -/
def walkPairs (exp : String → Value → EState → Option (EState × Option String)) :
    List (String × Value) → EState → Option EState
  | [], s => some s
  | p :: rest, s =>
    match exp p.1 p.2 s with
    | none => none
    | some (s2, _) => walkPairs exp rest s2

/-- Scenario D database: the posts row's user_id is NULL; the users table
and its row 1 exist but must not be touched. -/
def sceD : DB :=
  ⟨[("users", ["id", "email"]), ("posts", ["id", "user_id"])],
   [("users", ["id"]), ("posts", ["id"])],
   [⟨"posts_user_fk", "posts", "user_id", "users", "id"⟩],
   [("users", Value.int 1, [Value.int 1, Value.text "x"]),
    ("posts", Value.int 100, [Value.int 100, Value.null])]⟩

/-- The exported record of scenario D. -/
def pRecD : Record := ⟨"posts", ["id", "user_id"], [Value.int 100, Value.null]⟩

/-- C9: the foreign-key loop recurses into exactly the edges whose source
column occurs in the row with a non-null value (depPairsOf); an edge with
a missing column or a null value contributes nothing — no fetch, no state
change.  In scenario D the null user_id leaves the users row out of the
output entirely. -/
theorem fk_edge_recursion_spec :
    (∀ exp fks record s, exportFKs exp fks record s = walkPairs exp (depPairsOf fks record) s)
      ∧ Export sceD 10 "posts" (Value.int 100) = some (Except.ok [pRecD]) := by
  constructor
  · intro exp fks record
    induction fks with
    | nil => intro s; rfl
    | cons fk rest ih =>
      intro s
      show exportFKs exp (fk :: rest) record s = _
      unfold exportFKs depPairsOf
      rw [List.filterMap_cons]
      cases h : record.Columns.findIdx? (fun c => c == fk.ColumnName) with
      | none => simp only [h]; exact ih s
      | some i =>
        simp only [h]
        by_cases hv : valueAt record.Values i = Value.null
        · simp only [if_pos hv]
          exact ih s
        · simp only [if_neg hv]
          unfold walkPairs
          cases exp fk.ForeignTableName (valueAt record.Values i) s with
          | none => rfl
          | some out =>
            obtain ⟨s2, oe⟩ := out
            exact ih s2
  · rfl

-- C3: root failures abort, dependency failures degrade to warnings.

/-- Scenario E database: the posts row references users 1, but that row
has been deleted (the users schema still exists). -/
def sceE : DB :=
  ⟨[("users", ["id", "email"]), ("posts", ["id", "user_id"])],
   [("users", ["id"]), ("posts", ["id"])],
   [⟨"posts_user_fk", "posts", "user_id", "users", "id"⟩],
   [("posts", Value.int 100, [Value.int 100, Value.int 1])]⟩

/-- The exported record of scenario E. -/
def pRecE : Record := ⟨"posts", ["id", "user_id"], [Value.int 100, Value.int 1]⟩

/-- C3: a root row that cannot be fetched always aborts the export with an
error (for any database and any positive fuel), while a failing dependency
walk is swallowed at its call site: in scenario E the missing users row
leaves the dependent posts row exported and the export successful, the
failure having been downgraded to a warning. -/
theorem root_vs_dependency_failure :
    (∀ (db : DB) (fuel : Nat) (t : String) (id : Value), rowLookup db t id = none →
      ∃ e, Export db (fuel + 1) t id = some (Except.error e)) ∧
      Export sceE 10 "posts" (Value.int 100) = some (Except.ok [pRecE]) := by
  constructor
  · intro db fuel t id hrow
    unfold Export exportRecord
    cases hpk : getPrimaryKeyColumn db t with
    | error e =>
      refine ⟨"failed to get primary key for table " ++ t ++ ": " ++ e, ?_⟩
      simp [hpk]
    | ok pk =>
      refine ⟨"record not found: " ++ t ++ "." ++ pk ++ " = " ++ goFmt id, ?_⟩
      simp [hpk, fetchRecord, hrow]
  · rfl

/-- Witness for C3's root-failure half: exporting a deleted root row in
scenario E's database fails. -/
theorem root_vs_dependency_failure_witness :
    rowLookup sceE "users" (Value.int 1) = none ∧
      ∃ e, Export sceE 10 "users" (Value.int 1) = some (Except.error e) :=
  ⟨rfl, root_vs_dependency_failure.1 sceE 9 "users" (Value.int 1) rfl⟩

-- Basic facts about the walk, leading to the uniqueness, order and
-- termination theorems.

theorem mem_of_containsT (l : List String) (a : String) (h : l.contains a = true) : a ∈ l :=
  List.mem_of_elem_eq_true h

theorem not_mem_of_containsF (l : List String) (a : String) (h : l.contains a = false) :
    a ∉ l := by
  intro hm
  have h2 := List.elem_eq_true_of_mem hm
  rw [show l.contains a = l.elem a from rfl] at h
  rw [h2] at h
  cases h

theorem fetchRecord_mem (db : DB) (t pk : String) (id : Value) (record : Record)
    (h : fetchRecord db t pk id = some record) :
    ∃ e, e ∈ db.rows ∧ e.1 = t ∧ e.2.1 = id ∧
      record = ⟨e.1, getTableColumns db e.1, e.2.2⟩ := by
  unfold fetchRecord rowLookup at h
  cases hf : db.rows.find? (fun e => e.1 == t && e.2.1 == id) with
  | none => rw [hf] at h; cases h
  | some e =>
    rw [hf] at h
    have hp := List.find?_some hf
    have hmem := List.mem_of_find?_eq_some hf
    simp only [Bool.and_eq_true, beq_iff_eq] at hp
    obtain ⟨h1, h2⟩ := hp
    injection h with h3
    exact ⟨e, hmem, h1, h2, by rw [← h3, h1]⟩

theorem keyed_fetch (db : DB) (hK : Keyed db) (t pk : String) (id : Value) (record : Record)
    (h : fetchRecord db t pk id = some record) :
    recKeyStr db record = some (recordKey t id) := by
  obtain ⟨e, hmem, h1, h2, hrec⟩ := fetchRecord_mem db t pk id record h
  have hk := hK e hmem
  rw [hrec]
  unfold recKeyStr
  rw [hk]
  simp [h1, h2]

theorem depPairs_fetch (db : DB) (t pk : String) (id : Value) (record : Record)
    (h : fetchRecord db t pk id = some record) :
    depPairsOf (getForeignKeys db t) record = depPairs db record := by
  obtain ⟨e, _, h1, _, hrec⟩ := fetchRecord_mem db t pk id record h
  rw [hrec]
  unfold depPairs
  rw [h1]

theorem rank_fetch (db : DB) (rank : String → Nat) (hR : RankOK db rank) (t pk : String)
    (id : Value) (record : Record) (h : fetchRecord db t pk id = some record) :
    ∀ p ∈ depPairs db record, rank (recordKey p.1 p.2) < rank (recordKey t id) := by
  obtain ⟨e, hmem, h1, h2, hrec⟩ := fetchRecord_mem db t pk id record h
  intro p hp
  rw [hrec] at hp
  have := hR e hmem p hp
  rw [h1, h2] at this
  exact this

/-- Invariant needing only database consistency: record keys and
dependency keys of collected records are visited, and record keys are
pairwise distinct. -/
structure InvK (db : DB) (s : EState) : Prop where
  keyVis : ∀ r ∈ s.records, ∀ k, recKeyStr db r = some k → k ∈ s.visited
  depVis : ∀ r ∈ s.records, ∀ k ∈ depKeys db r, k ∈ s.visited
  nodup : s.records.Pairwise (fun a b => recKeyStr db a ≠ recKeyStr db b)

/-- Invariant needing acyclicity: the collected records are
dependency-ordered, and every collected record's dependencies have
strictly smaller rank than its own key. -/
structure InvR (db : DB) (rank : String → Nat) (s : EState) : Prop where
  order : DepOrdered db s.records
  edges : ∀ r ∈ s.records, ∀ kr, recKeyStr db r = some kr → ∀ k ∈ depKeys db r, rank k < rank kr

theorem invK_extend (db : DB) (s : EState) (nv : List String) (h : InvK db s) :
    InvK db ⟨nv ++ s.visited, s.records⟩ :=
  ⟨fun r hr k hk => List.mem_append_right nv (h.keyVis r hr k hk),
   fun r hr k hk => List.mem_append_right nv (h.depVis r hr k hk),
   h.nodup⟩

theorem invR_records_eq (db : DB) (rank : String → Nat) (s s2 : EState)
    (h : s2.records = s.records) (hR : InvR db rank s) : InvR db rank s2 :=
  ⟨by rw [h]; exact hR.order, by rw [h]; exact hR.edges⟩

/-- Appending a record that neither depends on itself nor is a dependency
of anything already collected preserves dependency order. -/
theorem depOrdered_append_singleton (db : DB) (l : List Record) (rec : Record)
    (h1 : DepOrdered db l)
    (h2 : ∀ k ∈ depKeys db rec, recKeyStr db rec ≠ some k)
    (h3 : ∀ r ∈ l, ∀ k ∈ depKeys db r, recKeyStr db rec ≠ some k) :
    DepOrdered db (l ++ [rec]) := by
  intro pre r post heq k hk r2 hr2
  rcases List.append_eq_append_iff.mp heq with ⟨x, hx1, hx2⟩ | ⟨y, hy1, hy2⟩
  · -- pre = l ++ x and [rec] = x ++ r :: post
    cases x with
    | nil =>
      simp only [List.nil_append] at hx2
      injection hx2 with hr hpost
      subst hr
      subst hpost
      have h4 := List.mem_singleton.mp hr2
      subst h4
      exact h2 k hk
    | cons a b =>
      injection hx2 with hr htail
      have := congrArg List.length htail
      simp at this
      omega
  · -- l = pre ++ y and r :: post = y ++ [rec]
    cases y with
    | nil =>
      simp only [List.nil_append] at hy2
      injection hy2 with hr hpost
      subst hr
      subst hpost
      have h4 := List.mem_singleton.mp hr2
      subst h4
      exact h2 k hk
    | cons a y2 =>
      injection hy2 with hr hpost
      subst hr
      have hrl : r ∈ l := by
        rw [hy1]
        exact List.mem_append_right pre (List.mem_cons_self r y2)
      rcases List.mem_cons.mp hr2 with h4 | h4
      · subst h4
        exact h1 pre r2 y2 hy1 k hk r2 (List.mem_cons_self r2 y2)
      · rw [hpost] at h4
        rcases List.mem_append.mp h4 with h5 | h5
        · exact h1 pre r y2 hy1 k hk r2 (List.mem_cons_of_mem r h5)
        · have h6 := List.mem_singleton.mp h5
          subst h6
          exact h3 r hrl k hk

/-- The per-call postcondition of exportRecord for the call on key K with
rank bound B: the visited list only grows, K ends up visited, the record
list grows by records whose keys are fresh and of rank at most B, and the
two invariants are preserved. -/
structure RecPost (db : DB) (rank : String → Nat) (K : String) (B : Nat) (s s2 : EState) : Prop where
  visMono : ∃ nv, s2.visited = nv ++ s.visited
  keyVis : K ∈ s2.visited
  recsEq : ∃ nr, s2.records = s.records ++ nr ∧
    (Keyed db → ∀ r ∈ nr, ∃ kr, recKeyStr db r = some kr ∧ kr ∉ s.visited ∧
      (RankOK db rank → rank kr ≤ B))
  invK : Keyed db → InvK db s → InvK db s2
  invR : Keyed db → RankOK db rank → InvK db s → InvR db rank s → InvR db rank s2

theorem depPairsOf_cons_none (fk : ForeignKey) (rest : List ForeignKey) (record : Record)
    (hidx : record.Columns.findIdx? (fun c => c == fk.ColumnName) = none) :
    depPairsOf (fk :: rest) record = depPairsOf rest record := by
  unfold depPairsOf
  rw [List.filterMap_cons, hidx]

theorem depPairsOf_cons_some (fk : ForeignKey) (rest : List ForeignKey) (record : Record)
    (i : Nat) (hidx : record.Columns.findIdx? (fun c => c == fk.ColumnName) = some i) :
    depPairsOf (fk :: rest) record =
      (if valueAt record.Values i = Value.null then depPairsOf rest record
       else (fk.ForeignTableName, valueAt record.Values i) :: depPairsOf rest record) := by
  unfold depPairsOf
  rw [List.filterMap_cons, hidx]
  by_cases hv : valueAt record.Values i = Value.null
  · simp [hv]
  · simp [hv]

theorem exportFKs_post (db : DB) (rank : String → Nat) (B : Nat)
    (exp : String → Value → EState → Option (EState × Option String))
    (hexp : ∀ t id s out, exp t id s = some out →
      RecPost db rank (recordKey t id) (rank (recordKey t id)) s out.1)
    (record : Record) :
    ∀ (fks : List ForeignKey) (s s2 : EState),
      exportFKs exp fks record s = some s2 →
      (RankOK db rank → ∀ p ∈ depPairsOf fks record, rank (recordKey p.1 p.2) < B) →
      (∃ nv, s2.visited = nv ++ s.visited) ∧
        (∀ p ∈ depPairsOf fks record, recordKey p.1 p.2 ∈ s2.visited) ∧
        (∃ nr, s2.records = s.records ++ nr ∧
          (Keyed db → ∀ r ∈ nr, ∃ kr, recKeyStr db r = some kr ∧ kr ∉ s.visited ∧
            (RankOK db rank → rank kr < B))) ∧
        (Keyed db → InvK db s → InvK db s2) ∧
        (Keyed db → RankOK db rank → InvK db s → InvR db rank s → InvR db rank s2) := by
  intro fks
  induction fks with
  | nil =>
    intro s s2 h hB
    injection h with h1
    subst h1
    refine ⟨⟨[], rfl⟩, ?_, ⟨[], by simp, fun _ r hr => absurd hr (List.not_mem_nil r)⟩,
      fun _ hI => hI, fun _ _ _ hR => hR⟩
    intro p hp
    simp [depPairsOf] at hp
  | cons fk rest ih =>
    intro s s2 h hB
    simp only [exportFKs] at h
    cases hidx : record.Columns.findIdx? (fun c => c == fk.ColumnName) with
    | none =>
      simp only [hidx] at h
      have hdp := depPairsOf_cons_none fk rest record hidx
      rw [hdp] at hB ⊢
      exact ih s s2 h hB
    | some i =>
      simp only [hidx] at h
      have hdp := depPairsOf_cons_some fk rest record i hidx
      by_cases hv : valueAt record.Values i = Value.null
      · rw [if_pos hv] at hdp
        rw [hdp] at hB ⊢
        rw [if_pos hv] at h
        exact ih s s2 h hB
      · rw [if_neg hv] at hdp
        rw [hdp] at hB ⊢
        rw [if_neg hv] at h
        cases hcall : exp fk.ForeignTableName (valueAt record.Values i) s with
        | none => rw [hcall] at h; cases h
        | some out =>
          rw [hcall] at h
          obtain ⟨sM, oe⟩ := out
          have hpost := hexp _ _ _ _ hcall
          have hB2 : RankOK db rank → ∀ p ∈ depPairsOf rest record,
              rank (recordKey p.1 p.2) < B := by
            intro hR p hp
            exact hB hR p (List.mem_cons_of_mem _ hp)
          have hKlt : RankOK db rank →
              rank (recordKey fk.ForeignTableName (valueAt record.Values i)) < B :=
            fun hR => hB hR _ (List.mem_cons_self _ _)
          have hrest := ih sM s2 h hB2
          obtain ⟨⟨nv2, hnv2⟩, hdep2, ⟨nr2, hnr2, hfresh2⟩, hinvK2, hinvR2⟩ := hrest
          obtain ⟨nv1, hnv1⟩ := hpost.visMono
          obtain ⟨nr1, hnr1, hfresh1⟩ := hpost.recsEq
          refine ⟨⟨nv2 ++ nv1, by rw [hnv2, hnv1, List.append_assoc]⟩, ?_,
            ⟨nr1 ++ nr2, by rw [hnr2, hnr1, List.append_assoc], ?_⟩, ?_, ?_⟩
          · intro p hp
            rcases List.mem_cons.mp hp with h4 | h4
            · subst h4
              rw [hnv2]
              exact List.mem_append_right nv2 hpost.keyVis
            · exact hdep2 p h4
          · intro hKy r hr
            rcases List.mem_append.mp hr with h4 | h4
            · obtain ⟨kr, hkr, hnotin, hrank⟩ := hfresh1 hKy r h4
              exact ⟨kr, hkr, hnotin, fun hR => lt_of_le_of_lt (hrank hR) (hKlt hR)⟩
            · obtain ⟨kr, hkr, hnotin, hrank⟩ := hfresh2 hKy r h4
              refine ⟨kr, hkr, ?_, hrank⟩
              intro hin
              exact hnotin (by rw [hnv1]; exact List.mem_append_right nv1 hin)
          · intro hKy hI
            exact hinvK2 hKy (hpost.invK hKy hI)
          · intro hKy hR hI hRv
            exact hinvR2 hKy hR (hpost.invK hKy hI) (hpost.invR hKy hR hI hRv)

theorem exportRecord_post (db : DB) (rank : String → Nat) :
    ∀ (fuel : Nat) (t : String) (id : Value) (s : EState) (out : EState × Option String),
      exportRecord db fuel t id s = some out →
      RecPost db rank (recordKey t id) (rank (recordKey t id)) s out.1 := by
  intro fuel
  induction fuel with
  | zero => intro t id s out h; cases h
  | succ fuel ih =>
    intro t id s out h
    simp only [exportRecord] at h
    by_cases hvis : recordKey t id ∈ s.visited
    · have hc : s.visited.contains (recordKey t id) = true := List.elem_eq_true_of_mem hvis
      rw [hc, if_pos rfl] at h
      injection h with h1
      subst h1
      exact ⟨⟨[], rfl⟩, hvis, ⟨[], by simp, fun _ r hr => absurd hr (List.not_mem_nil r)⟩,
        fun _ hI => hI, fun _ _ _ hR => hR⟩
    · have hc : s.visited.contains (recordKey t id) = false := by
        cases hcc : s.visited.contains (recordKey t id) with
        | false => rfl
        | true => exact absurd (mem_of_containsT _ _ hcc) hvis
      rw [hc, if_neg Bool.false_ne_true] at h
      cases hpk : getPrimaryKeyColumn db t with
      | error e =>
        simp only [hpk] at h
        injection h with h1
        subst h1
        exact ⟨⟨[recordKey t id], rfl⟩, List.mem_cons_self _ _,
          ⟨[], by simp, fun _ r hr => absurd hr (List.not_mem_nil r)⟩,
          fun _ hI => invK_extend db s [recordKey t id] hI,
          fun _ _ _ hR => invR_records_eq db rank s _ rfl hR⟩
      | ok pk =>
        simp only [hpk] at h
        cases hft : fetchRecord db t pk id with
        | none =>
          simp only [hft] at h
          injection h with h1
          subst h1
          exact ⟨⟨[recordKey t id], rfl⟩, List.mem_cons_self _ _,
            ⟨[], by simp, fun _ r hr => absurd hr (List.not_mem_nil r)⟩,
            fun _ hI => invK_extend db s [recordKey t id] hI,
            fun _ _ _ hR => invR_records_eq db rank s _ rfl hR⟩
        | some record =>
          simp only [hft] at h
          cases hfk : exportFKs (exportRecord db fuel) (getForeignKeys db t) record
              ⟨recordKey t id :: s.visited, s.records⟩ with
          | none => simp only [hfk] at h; exact Option.noConfusion h
          | some sF =>
            simp only [hfk] at h
            injection h with h1
            subst h1
            have hBnd : RankOK db rank → ∀ p ∈ depPairsOf (getForeignKeys db t) record,
                rank (recordKey p.1 p.2) < rank (recordKey t id) := by
              intro hR p hp
              rw [depPairs_fetch db t pk id record hft] at hp
              exact rank_fetch db rank hR t pk id record hft p hp
            have hfkpost := exportFKs_post db rank (rank (recordKey t id)) (exportRecord db fuel)
              (fun t2 id2 s2 out2 hcall => ih t2 id2 s2 out2 hcall) record
              (getForeignKeys db t) ⟨recordKey t id :: s.visited, s.records⟩ sF hfk hBnd
            obtain ⟨⟨nv, hnv⟩, hdeps, ⟨nr, hnr, hfresh⟩, hinvK, hinvR⟩ := hfkpost
            have hnv2 : sF.visited = nv ++ (recordKey t id :: s.visited) := hnv
            have hnr2 : sF.records = s.records ++ nr := hnr
            constructor
            · -- visMono
              exact ⟨nv ++ [recordKey t id], by
                show sF.visited = (nv ++ [recordKey t id]) ++ s.visited
                rw [hnv2]
                simp⟩
            · -- keyVis
              show recordKey t id ∈ sF.visited
              rw [hnv2]
              exact List.mem_append_right nv (List.mem_cons_self _ _)
            · -- recsEq
              refine ⟨nr ++ [record], by
                show sF.records ++ [record] = s.records ++ (nr ++ [record])
                rw [hnr2]
                simp, ?_⟩
              intro hKy r hr
              rcases List.mem_append.mp hr with h4 | h4
              · obtain ⟨kr, hkr, hnotin, hrank⟩ := hfresh hKy r h4
                refine ⟨kr, hkr, ?_, fun hR => le_of_lt (hrank hR)⟩
                intro hin
                exact hnotin (List.mem_cons_of_mem _ hin)
              · have h5 := List.mem_singleton.mp h4
                subst h5
                exact ⟨recordKey t id, keyed_fetch db hKy t pk id r hft, hvis, fun _ => le_refl _⟩
            · -- invK
              intro hKy hI
              have hI1 : InvK db ⟨recordKey t id :: s.visited, s.records⟩ :=
                invK_extend db s [recordKey t id] hI
              have hIF := hinvK hKy hI1
              have hkeyrec : recKeyStr db record = some (recordKey t id) :=
                keyed_fetch db hKy t pk id record hft
              refine ⟨?_, ?_, ?_⟩
              · intro r hr k hk
                show k ∈ sF.visited
                rcases List.mem_append.mp hr with h4 | h4
                · exact hIF.keyVis r h4 k hk
                · have h5 := List.mem_singleton.mp h4
                  subst h5
                  rw [hkeyrec] at hk
                  injection hk with h6
                  subst h6
                  rw [hnv2]
                  exact List.mem_append_right nv (List.mem_cons_self _ _)
              · intro r hr k hk
                show k ∈ sF.visited
                rcases List.mem_append.mp hr with h4 | h4
                · exact hIF.depVis r h4 k hk
                · have h5 := List.mem_singleton.mp h4
                  subst h5
                  unfold depKeys at hk
                  obtain ⟨p, hp, hkp⟩ := List.mem_map.mp hk
                  rw [← hkp]
                  apply hdeps p
                  rw [depPairs_fetch db t pk id r hft]
                  exact hp
              · show (sF.records ++ [record]).Pairwise (fun a b => recKeyStr db a ≠ recKeyStr db b)
                rw [List.pairwise_append]
                refine ⟨hIF.nodup, List.pairwise_singleton _ _, ?_⟩
                intro a ha b hb
                have h5 := List.mem_singleton.mp hb
                subst h5
                rw [hkeyrec]
                rw [hnr2] at ha
                rcases List.mem_append.mp ha with h6 | h6
                · intro heq
                  exact hvis (hI.keyVis a h6 (recordKey t id) heq)
                · obtain ⟨kr, hkr, hnotin, _⟩ := hfresh hKy a h6
                  rw [hkr]
                  intro heq
                  injection heq with h7
                  subst h7
                  exact hnotin (List.mem_cons_self _ _)
            · -- invR
              intro hKy hR hI hRv
              have hI1 : InvK db ⟨recordKey t id :: s.visited, s.records⟩ :=
                invK_extend db s [recordKey t id] hI
              have hRv1 : InvR db rank ⟨recordKey t id :: s.visited, s.records⟩ :=
                invR_records_eq db rank s _ rfl hRv
              have hIF := hinvK hKy hI1
              have hRF := hinvR hKy hR hI1 hRv1
              have hkeyrec : recKeyStr db record = some (recordKey t id) :=
                keyed_fetch db hKy t pk id record hft
              have hrankrec : ∀ k ∈ depKeys db record, rank k < rank (recordKey t id) := by
                intro k hk
                unfold depKeys at hk
                obtain ⟨p, hp, hkp⟩ := List.mem_map.mp hk
                rw [← hkp]
                exact rank_fetch db rank hR t pk id record hft p hp
              constructor
              · show DepOrdered db (sF.records ++ [record])
                apply depOrdered_append_singleton db sF.records record hRF.order
                · intro k hk heq
                  rw [hkeyrec] at heq
                  injection heq with h6
                  subst h6
                  exact absurd (hrankrec _ hk) (lt_irrefl _)
                · intro r hr k hk heq
                  rw [hkeyrec] at heq
                  injection heq with h6
                  subst h6
                  rw [hnr2] at hr
                  rcases List.mem_append.mp hr with h6 | h6
                  · exact hvis (hI.depVis r h6 _ hk)
                  · obtain ⟨kr, hkr, _, hrank⟩ := hfresh hKy r h6
                    have h7 := hRF.edges r (by rw [hnr2]; exact List.mem_append_right _ h6) kr hkr _ hk
                    have h8 := hrank hR
                    omega
              · intro r hr kr hkr k hk
                rcases List.mem_append.mp hr with h4 | h4
                · exact hRF.edges r h4 kr hkr k hk
                · have h5 := List.mem_singleton.mp h4
                  subst h5
                  rw [hkeyrec] at hkr
                  injection hkr with h6
                  subst h6
                  exact hrankrec k hk

-- C2: uniqueness of (table, primary-key value) pairs.

/-- C2: no (table, primary-key value) pair appears twice in an export of a
consistent database — a row reachable via several chains (diamonds,
cycles) is exported exactly once, because keys are marked visited before
any recursion. -/
theorem export_unique (db : DB) (fuel : Nat) (t : String) (id : Value) (res : List Record)
    (hK : Keyed db) (h : Export db fuel t id = some (Except.ok res)) :
    res.Pairwise (fun a b => recKey db a ≠ recKey db b) := by
  unfold Export at h
  cases hr : exportRecord db fuel t id ⟨[], []⟩ with
  | none => rw [hr] at h; cases h
  | some out =>
    obtain ⟨s2, oe⟩ := out
    cases oe with
    | some e => rw [hr] at h; simp at h
    | none =>
      rw [hr] at h
      injection h with h1
      injection h1 with h2
      have hpost := exportRecord_post db (fun _ => 0) fuel t id ⟨[], []⟩ (s2, none) hr
      have hI : InvK db ⟨[], []⟩ :=
        ⟨fun r hr2 => absurd hr2 (List.not_mem_nil r),
         fun r hr2 => absurd hr2 (List.not_mem_nil r), List.Pairwise.nil⟩
      have hI2 := hpost.invK hK hI
      rw [← h2]
      exact hI2.nodup.imp (fun hne heq => hne (by unfold recKeyStr; rw [heq]))

/-- Diamond database: a 1 references b 1 and c 1, both of which reference
d 1. -/
def diamondDB : DB :=
  ⟨[("a", ["id", "b_id", "c_id"]), ("b", ["id", "d_id"]), ("c", ["id", "d_id"]), ("d", ["id"])],
   [("a", ["id"]), ("b", ["id"]), ("c", ["id"]), ("d", ["id"])],
   [⟨"a_b", "a", "b_id", "b", "id"⟩, ⟨"a_c", "a", "c_id", "c", "id"⟩,
    ⟨"b_d", "b", "d_id", "d", "id"⟩, ⟨"c_d", "c", "d_id", "d", "id"⟩],
   [("a", Value.int 1, [Value.int 1, Value.int 1, Value.int 1]),
    ("b", Value.int 1, [Value.int 1, Value.int 1]),
    ("c", Value.int 1, [Value.int 1, Value.int 1]),
    ("d", Value.int 1, [Value.int 1])]⟩

/-- The records of the diamond export, in dependency order: d once. -/
def diamondRes : List Record :=
  [⟨"d", ["id"], [Value.int 1]⟩, ⟨"b", ["id", "d_id"], [Value.int 1, Value.int 1]⟩,
   ⟨"c", ["id", "d_id"], [Value.int 1, Value.int 1]⟩,
   ⟨"a", ["id", "b_id", "c_id"], [Value.int 1, Value.int 1, Value.int 1]⟩]

/-- Witness for C2 on the diamond database: d is reachable through b and
through c, appears once, and all pairs are distinct. -/
theorem export_unique_witness :
    Keyed diamondDB ∧ Export diamondDB 10 "a" (Value.int 1) = some (Except.ok diamondRes) ∧
      diamondRes.Pairwise (fun a b => recKey diamondDB a ≠ recKey diamondDB b) :=
  ⟨by decide, rfl, export_unique diamondDB 10 "a" (Value.int 1) diamondRes (by decide) rfl⟩

-- C1: dependency order.

/-- C1 counterexample: the spec's own self-reference scenario already
violates the unconditional dependency-order invariant — the exported nodes
record references the (nodes, 5) key, which is present in the output but
not strictly before it. -/
theorem export_dep_order_cex :
    Export selfDB 10 "nodes" (Value.int 5) = some (Except.ok [selfRec]) ∧
      ¬DepOrdered selfDB [selfRec] := by
  refine ⟨rfl, ?_⟩
  intro hord
  have hne := hord [] selfRec [] rfl (recordKey "nodes" (Value.int 5)) (by decide)
    selfRec (List.mem_cons_self _ _)
  exact hne (by decide)

/-- C1 (amended): on a consistent database whose foreign-key instance
graph is acyclic (witnessed by a rank function that decreases along every
dependency edge), every successful export is dependency-ordered: a record
referenced by R and present in the output occurs strictly before R. -/
theorem export_dep_order (db : DB) (rank : String → Nat) (fuel : Nat) (t : String) (id : Value)
    (res : List Record) (hK : Keyed db) (hR : RankOK db rank)
    (h : Export db fuel t id = some (Except.ok res)) : DepOrdered db res := by
  unfold Export at h
  cases hr : exportRecord db fuel t id ⟨[], []⟩ with
  | none => rw [hr] at h; cases h
  | some out =>
    obtain ⟨s2, oe⟩ := out
    cases oe with
    | some e => rw [hr] at h; simp at h
    | none =>
      rw [hr] at h
      injection h with h1
      injection h1 with h2
      have hpost := exportRecord_post db rank fuel t id ⟨[], []⟩ (s2, none) hr
      have hI : InvK db ⟨[], []⟩ :=
        ⟨fun r hr2 => absurd hr2 (List.not_mem_nil r),
         fun r hr2 => absurd hr2 (List.not_mem_nil r), List.Pairwise.nil⟩
      have hRv : InvR db rank ⟨[], []⟩ := by
        constructor
        · intro pre r post heq k hk r2 hr2
          have hlen := congrArg List.length heq
          simp at hlen
          omega
        · intro r hr2
          exact absurd hr2 (List.not_mem_nil r)
      have hRf := hpost.invR hK hR hI hRv
      rw [← h2]
      exact hRf.order

/-- A rank function for scenario B: users before posts. -/
def rnkB : String → Nat := fun k => if k = recordKey "users" (Value.int 1) then 0 else 1

/-- Witness for C1 (amended) on scenario B: the users row precedes the
posts row that references it. -/
theorem export_dep_order_witness :
    Keyed sceB ∧ RankOK sceB rnkB ∧ DepOrdered sceB [uRecB, pRecB] :=
  ⟨by decide, by decide,
   export_dep_order sceB rnkB 10 "posts" (Value.int 100) [uRecB, pRecB] (by decide) (by decide) rfl⟩

-- C5: termination on finite reachable row sets.

/-- How many keys of R the walk has not yet visited. -/
def unvisitedCard (R : Finset String) (s : EState) : Nat :=
  (R.filter (fun k => k ∉ s.visited)).card

theorem unvisited_mono (R : Finset String) (s s2 : EState)
    (h : ∃ nv, s2.visited = nv ++ s.visited) :
    unvisitedCard R s2 ≤ unvisitedCard R s := by
  obtain ⟨nv, hnv⟩ := h
  apply Finset.card_le_card
  intro k hk
  simp only [Finset.mem_filter] at hk ⊢
  exact ⟨hk.1, fun hm => hk.2 (by rw [hnv]; exact List.mem_append_right nv hm)⟩

theorem unvisited_mark (R : Finset String) (s : EState) (K : String)
    (hKR : K ∈ R) (hK : K ∉ s.visited) :
    unvisitedCard R ⟨K :: s.visited, s.records⟩ < unvisitedCard R s := by
  apply Finset.card_lt_card
  rw [Finset.ssubset_def]
  constructor
  · intro k hk
    simp only [Finset.mem_filter] at hk ⊢
    exact ⟨hk.1, fun hm => hk.2 (List.mem_cons_of_mem _ hm)⟩
  · intro hsub2
    have hKmem : K ∈ R.filter (fun k => k ∉ s.visited) := Finset.mem_filter.mpr ⟨hKR, hK⟩
    have h2 := hsub2 hKmem
    simp only [Finset.mem_filter] at h2
    exact h2.2 (List.mem_cons_self _ _)

theorem exportFKs_total (db : DB) (R : Finset String) (fuel : Nat)
    (hrec : ∀ t id s, recordKey t id ∈ R → unvisitedCard R s < fuel →
      (exportRecord db fuel t id s).isSome = true) :
    ∀ (fks : List ForeignKey) (record : Record) (s : EState),
      (∀ p ∈ depPairsOf fks record, recordKey p.1 p.2 ∈ R) →
      unvisitedCard R s < fuel →
      (exportFKs (exportRecord db fuel) fks record s).isSome = true := by
  intro fks record
  induction fks with
  | nil => intro s _ _; rfl
  | cons fk rest ih =>
    intro s hin hcard
    simp only [exportFKs]
    cases hidx : record.Columns.findIdx? (fun c => c == fk.ColumnName) with
    | none =>
      simp only [hidx]
      refine ih s (fun p hp => hin p ?_) hcard
      rw [depPairsOf_cons_none fk rest record hidx]
      exact hp
    | some i =>
      simp only [hidx]
      by_cases hv : valueAt record.Values i = Value.null
      · rw [if_pos hv]
        refine ih s (fun p hp => hin p ?_) hcard
        rw [depPairsOf_cons_some fk rest record i hidx, if_pos hv]
        exact hp
      · rw [if_neg hv]
        have hmemp : recordKey fk.ForeignTableName (valueAt record.Values i) ∈ R := by
          have hp : (fk.ForeignTableName, valueAt record.Values i) ∈
              depPairsOf (fk :: rest) record := by
            rw [depPairsOf_cons_some fk rest record i hidx, if_neg hv]
            exact List.mem_cons_self _ _
          exact hin _ hp
        have hcall := hrec fk.ForeignTableName (valueAt record.Values i) s hmemp hcard
        cases hout : exportRecord db fuel fk.ForeignTableName (valueAt record.Values i) s with
        | none => rw [hout] at hcall; simp at hcall
        | some out =>
          obtain ⟨sM, oe⟩ := out
          simp only [hout]
          have hpost := exportRecord_post db (fun _ => 0) fuel _ _ s (sM, oe) hout
          refine ih sM (fun p hp => hin p ?_) ?_
          · rw [depPairsOf_cons_some fk rest record i hidx, if_neg hv]
            exact List.mem_cons_of_mem _ hp
          · exact lt_of_le_of_lt (unvisited_mono R s sM hpost.visMono) hcard

theorem exportRecord_total (db : DB) (R : Finset String) (hcl : ClosedKeys db R) :
    ∀ (fuel : Nat) (t : String) (id : Value) (s : EState), recordKey t id ∈ R →
      unvisitedCard R s < fuel → (exportRecord db fuel t id s).isSome = true := by
  intro fuel
  induction fuel with
  | zero => intro t id s _ hcard; exact absurd hcard (Nat.not_lt_zero _)
  | succ fuel ih =>
    intro t id s hmem hcard
    simp only [exportRecord]
    by_cases hvis : recordKey t id ∈ s.visited
    · have hc : s.visited.contains (recordKey t id) = true := List.elem_eq_true_of_mem hvis
      rw [hc, if_pos rfl]
      rfl
    · have hc : s.visited.contains (recordKey t id) = false := by
        cases hcc : s.visited.contains (recordKey t id) with
        | false => rfl
        | true => exact absurd (mem_of_containsT _ _ hcc) hvis
      rw [hc, if_neg Bool.false_ne_true]
      cases hpk : getPrimaryKeyColumn db t with
      | error e => simp only [hpk]; rfl
      | ok pk =>
        simp only [hpk]
        cases hft : fetchRecord db t pk id with
        | none => simp only [hft]; rfl
        | some record =>
          simp only [hft]
          have hdeps : ∀ p ∈ depPairsOf (getForeignKeys db t) record,
              recordKey p.1 p.2 ∈ R := by
            rw [depPairs_fetch db t pk id record hft]
            obtain ⟨e, hmem2, h1, h2, hrec⟩ := fetchRecord_mem db t pk id record hft
            intro p hp
            rw [hrec] at hp
            exact hcl e hmem2 (by rw [h1, h2]; exact hmem) p hp
          have hcard1 : unvisitedCard R ⟨recordKey t id :: s.visited, s.records⟩ < fuel := by
            have := unvisited_mark R s (recordKey t id) hmem hvis
            omega
          have htot := exportFKs_total db R fuel ih (getForeignKeys db t) record
            ⟨recordKey t id :: s.visited, s.records⟩ hdeps hcard1
          cases hfk : exportFKs (exportRecord db fuel) (getForeignKeys db t) record
              ⟨recordKey t id :: s.visited, s.records⟩ with
          | none => rw [hfk] at htot; simp at htot
          | some sF => simp only [hfk]; rfl

/-- C5: on any database, starting from any root whose reachable keys fit
in a finite dependency-closed key set, some fuel makes the walk finish —
the walk terminates because every key is marked visited before recursing,
so cycles short-circuit.  Concretely, the self-referential nodes row 5
terminates and yields exactly one record. -/
theorem export_termination :
    (∀ (db : DB) (R : Finset String) (t : String) (id : Value),
      recordKey t id ∈ R → ClosedKeys db R →
      ∃ fuel, (Export db fuel t id).isSome = true) ∧
      Export selfDB 10 "nodes" (Value.int 5) = some (Except.ok [selfRec]) := by
  constructor
  · intro db R t id hmem hcl
    refine ⟨R.card + 1, ?_⟩
    have hbound : unvisitedCard R ⟨[], []⟩ < R.card + 1 := by
      have : unvisitedCard R ⟨[], []⟩ ≤ R.card := Finset.card_filter_le _ _
      omega
    have htot := exportRecord_total db R hcl (R.card + 1) t id ⟨[], []⟩ hmem hbound
    unfold Export
    cases hr : exportRecord db (R.card + 1) t id ⟨[], []⟩ with
    | none => rw [hr] at htot; simp at htot
    | some out =>
      obtain ⟨s2, oe⟩ := out
      cases oe with
      | some e => rfl
      | none => rfl
  · rfl

/-- Witness for C5's general half at the self-loop database. -/
theorem export_termination_witness :
    recordKey "nodes" (Value.int 5) ∈ ({recordKey "nodes" (Value.int 5)} : Finset String) ∧
      ClosedKeys selfDB {recordKey "nodes" (Value.int 5)} ∧
      ∃ fuel, (Export selfDB fuel "nodes" (Value.int 5)).isSome = true :=
  ⟨Finset.mem_singleton_self _, by decide,
   export_termination.1 selfDB {recordKey "nodes" (Value.int 5)} "nodes" (Value.int 5)
     (Finset.mem_singleton_self _) (by decide)⟩
